import Mathlib

/-!
Verification of the nested-structure serialization subsystem of
neuralpredictors (src/neuralpredictors/utils.py): the flattener
`flatten_json` and the hierarchical loader `load_dict_from_hdf5` /
`recursively_load_dict_contents_from_group`, shallowly embedded in Lean.

Python dictionaries are modelled as insertion-ordered association lists;
Python exceptions are modelled by an `Except PyError` result.
-/

set_option autoImplicit false

namespace NeuralPredictors

/-- Errors raised by the embedded Python code. `valueError` models Python's
`ValueError(msg)`, `keyError` models the `KeyError` raised by an h5py
item lookup on a missing name, `typeError` models the `TypeError` raised
when a group object is read as if it were a dataset. -/
inductive PyError where
  | valueError (msg : String)
  | keyError (key : String)
  | typeError (msg : String)
deriving DecidableEq, Repr

mutual
/-- Nested JSON-like trees: the input type of `flatten_json`. A Python value
is either a `dict` (an insertion-ordered association list of string keys,
here `JList`) or any other value, treated as an opaque leaf of type `α`. -/
inductive JTree (α : Type) where
  | leaf : α → JTree α
  | node : JList α → JTree α

/-- Entry list of a Python `dict` with string keys, in insertion order. -/
inductive JList (α : Type) where
  | nil : JList α
  | cons : String → JTree α → JList α → JList α
end

instance {ε β : Type} [DecidableEq ε] [DecidableEq β] : DecidableEq (Except ε β)
  | .error a, .error b =>
    if h : a = b then .isTrue (by rw [h]) else .isFalse (by simp [h])
  | .error _, .ok _ => .isFalse (by simp)
  | .ok _, .error _ => .isFalse (by simp)
  | .ok a, .ok b =>
    if h : a = b then .isTrue (by rw [h]) else .isFalse (by simp [h])

deriving instance DecidableEq for JTree, JList
deriving instance Repr for JTree, JList

variable {α : Type}

/-- Python's `s[:-1]`: the string without its final character (identity on
the empty string, exactly as in Python). -/
def strInit (s : String) : String := String.mk s.data.dropLast

mutual
/-- The inner helper `flatten(x, name)` of `flatten_json`, with the
accumulated output dictionary `out` passed explicitly. Leaf case: check
`name[:-1] in out`, raise `ValueError` on a hit, else insert at the end.
Dict case: iterate over entries in order, recursing with
`(name if keep_nested_name else "") + key + "_"`. -/
def flattenAux (keep : Bool) : JTree α → String → List (String × α) →
    Except PyError (List (String × α))
  | .leaf x, name, out =>
    if (out.lookup (strInit name)).isSome then
      .error (.valueError "Multiple entries with identical names")
    else
      .ok (out ++ [(strInit name, x)])
  | .node kvs, name, out => flattenListAux keep kvs name out

/-- Iteration over the entries of a dict inside `flatten`. -/
def flattenListAux (keep : Bool) : JList α → String → List (String × α) →
    Except PyError (List (String × α))
  | .nil, _, out => .ok out
  | .cons key value rest, name, out => do
    let out2 ← flattenAux keep value ((if keep then name else "") ++ key ++ "_") out
    flattenListAux keep rest name out2
end

/-- Embedding of `flatten_json(nested_dict, keep_nested_name=True)`. -/
def flatten_json (nested_dict : JTree α) (keep_nested_name : Bool := true) :
    Except PyError (List (String × α)) :=
  flattenAux keep_nested_name nested_dict "" []

/-! Hierarchical (HDF5) store model. The h5py container is external to the
repository; it is modelled as a finite tree of named groups and datasets,
exactly the read interface the loader uses: iterate the children of a group
in storage order, read a dataset's raw value and its dtype character, read
a group's boolean attribute with a default, and look an item up by name
(raising `KeyError` when the name is absent). -/

/-- Raw value of a dataset (`item[()]`), as a flat list of elements together
with a content tag: undecoded fixed-width byte strings, decoded text, or
numbers. The dtype character of the dataset is stored separately on the
dataset itself, as in h5py. -/
inductive HVal where
  | bytes (bs : List String)
  | text (ss : List String)
  | ints (ns : List Int)
deriving DecidableEq, Repr

/-- NumPy's `v.astype(str)` on the raw value: every element becomes text.
The source only applies it when `dtype.char == "S"`. -/
def astypeStr : HVal → HVal
  | .bytes bs => .text bs
  | .text ss => .text ss
  | .ints ns => .text (ns.map (fun n => n.repr))

mutual
/-- An h5py object: a dataset with a dtype character and a raw value, or a
group with its attribute `_iterable` (false when absent, the default of
`attrs.get("_iterable", False)`) and its named children in storage order. -/
inductive H5Item where
  | dataset (dtypeChar : Char) (value : HVal)
  | group (iterable : Bool) (children : H5List)

/-- Children of an h5py group, in the order reported by `.items()`. -/
inductive H5List where
  | nil : H5List
  | cons : String → H5Item → H5List → H5List
end

deriving instance DecidableEq for H5Item, H5List
deriving instance Repr for H5Item, H5List

mutual
/-- Result of loading: a dataset value, a list of raw values (for an
`_iterable` group), or a nested dict. -/
inductive Loaded where
  | val : HVal → Loaded
  | list : List HVal → Loaded
  | dict : LDict → Loaded

/-- A loaded nested dictionary, in insertion order. -/
inductive LDict where
  | nil : LDict
  | cons : String → Loaded → LDict → LDict
end

deriving instance DecidableEq for Loaded, LDict
deriving instance Repr for Loaded, LDict

/-- Name lookup among a group's children (`item[name]` on a group), as an
option; h5py raises `KeyError` on `none`. -/
def getChild : H5List → String → Option H5Item
  | .nil, _ => none
  | .cons k it rest, name => if k = name then some it else getChild rest name

/-- Python's `len(item)` on an h5py group: the number of its children. -/
def h5len : H5List → Nat
  | .nil => 0
  | .cons _ _ rest => h5len rest + 1

/-- Reading `item[str(i)][()]`: the raw, undecoded value of the child
dataset named `str(i)`; `KeyError` if the name is absent, `TypeError` if
the child is itself a group (a group cannot be read with `[()]`). -/
def readIdx (children : H5List) (i : Nat) : Except PyError HVal :=
  match getChild children (toString i) with
  | none => .error (.keyError (toString i))
  | some (.dataset _ v) => .ok v
  | some (.group _ _) => .error (.typeError "Accessing a group is done with bytes or str")

/-- The list comprehension `[item[str(i)][()] for i in range(len(item))]`,
reading indices `start, start+1, ...` for `count` steps in ascending
order and stopping at the first error. -/
def readSeq (children : H5List) (start : Nat) : Nat → Except PyError (List HVal)
  | 0 => .ok []
  | count + 1 => do
    let v ← readIdx children start
    let vs ← readSeq children (start + 1) count
    .ok (v :: vs)

mutual
/-- Embedding of `recursively_load_dict_contents_from_group`, operating
directly on the children of the group addressed by `path` (the source
re-resolves `path + key + "/"` from the file root at each recursive call;
on a tree-shaped store that lookup returns exactly the child object
already in hand, so the embedding recurses on the child). For each child
in storage order: a dataset is read raw and decoded elementwise iff its
dtype character is `S`; a group with attribute `_iterable` true becomes
the list of raw reads `item[str(i)][()]` for `i < len(item)`; any other
group is loaded recursively. -/
def loadGroup : H5List → Except PyError LDict
  | .nil => .ok .nil
  | .cons key (.dataset dtypeChar v) rest => do
    let v2 := if dtypeChar = 'S' then astypeStr v else v
    let d ← loadGroup rest
    .ok (.cons key (.val v2) d)
  | .cons key (.group iterable gchildren) rest =>
    if iterable then do
      let vs ← readSeq gchildren 0 (h5len gchildren)
      let d ← loadGroup rest
      .ok (.cons key (.list vs) d)
    else do
      let sub ← loadGroup gchildren
      let d ← loadGroup rest
      .ok (.cons key (.dict sub) d)
end

/-- State of the h5py file handle across a call to `load_dict_from_hdf5`:
whether `h5py.File(filename, "r")` was entered, and whether the handle
was closed again. -/
structure FileSession where
  opened : Bool
  closed : Bool
deriving DecidableEq, Repr

/-- Python's `with h5py.File(filename, "r") as h5file: body` statement:
the handle is acquired, the body runs (possibly raising, modelled by an
`error` result), and the exit handler closes the handle unconditionally
before the result — normal or exceptional — leaves the statement. -/
def withH5File {β : Type} (file : H5List) (body : H5List → Except PyError β) :
    Except PyError β × FileSession :=
  let session : FileSession := { opened := true, closed := false }
  let r := body file
  (r, { session with closed := true })

/-- Embedding of `load_dict_from_hdf5(filename)`: open the file read-only,
load the root group recursively, and return the result; the second
component reports the final state of the file handle. -/
def load_dict_from_hdf5 (file : H5List) : Except PyError LDict × FileSession :=
  withH5File file (fun h5file => loadGroup h5file)

/-! Flattener theory: the entry list a flattening traversal produces, and a
closed-form characterization of `flattenAux` in terms of it. -/

mutual
/-- Entries `(computed key, leaf value)` that the traversal of `flatten`
visits, in traversal order, with the same name accumulation as the code. -/
def fEntries (keep : Bool) : JTree α → String → List (String × α)
  | .leaf x, name => [(strInit name, x)]
  | .node kvs, name => fEntriesList keep kvs name

/-- Entry lists contributed by the children of a dict, concatenated in
iteration order. -/
def fEntriesList (keep : Bool) : JList α → String → List (String × α)
  | .nil, _ => []
  | .cons key value rest, name =>
    fEntries keep value ((if keep then name else "") ++ key ++ "_") ++
      fEntriesList keep rest name
end

/-- Keys (first components) of an association list. -/
def keysOf (l : List (String × α)) : List String := l.map Prod.fst

instance {β : Type} (o : Option β) : Decidable (o = none) :=
  match o with
  | none => .isTrue rfl
  | some _ => .isFalse (fun h => Option.noConfusion h)

/-- Success condition of inserting the entries `es` after the accumulated
output `out`: the keys of `es` are pairwise distinct and none of them is
already bound in `out`. -/
def flatCond (out es : List (String × α)) : Prop :=
  (keysOf es).Nodup ∧ ∀ k ∈ keysOf es, out.lookup k = none

instance (out es : List (String × α)) : Decidable (flatCond out es) := by
  unfold flatCond
  infer_instance

/-- A flat single-level mapping, as a tree all of whose values are leaves. -/
def ofPairs : List (String × α) → JList α
  | [] => .nil
  | (k, v) :: rest => .cons k (.leaf v) (ofPairs rest)

/-- Modelled from the spec: Python's `key.split('_')` on the character list
of a key, for the re-nesting direction of the round-trip property (the
repository has no un-flattening code; the spec describes re-nesting by
splitting each key on the separator). `"".split('_') == ['']`. -/
def splitCh : List Char → List (List Char)
  | [] => [[]]
  | c :: cs =>
    if c = '_' then [] :: splitCh cs
    else
      match splitCh cs with
      | [] => [[c]]
      | g :: gs => (c :: g) :: gs

/-- Modelled from the spec: splitting a flattened key on the separator
character `'_'` into its path segments. -/
def splitKey (s : String) : List String := (splitCh s.data).map String.mk

/-- Children of a tree node; a leaf has none. -/
def kvsOf : JTree α → JList α
  | .leaf _ => .nil
  | .node kvs => kvs

/-- Updates the entry at key `s` with `f` (first occurrence), appending a
fresh entry `f (empty node)` when the key is absent. -/
def insertL : JList α → String → (JTree α → JTree α) → JList α
  | .nil, s, f => .cons s (f (.node .nil)) .nil
  | .cons k t r, s, f =>
    if k = s then .cons k (f t) r else .cons k t (insertL r s f)

/-- Modelled from the spec: re-nesting one flat entry into a tree, walking
the path segments and placing the leaf at the end of the path. -/
def insertAt : JTree α → List String → α → JTree α
  | _, [], v => .leaf v
  | t, s :: rest, v => .node (insertL (kvsOf t) s (fun sub => insertAt sub rest v))

/-- Modelled from the spec: re-nesting a flat mapping by splitting each key
on the separator `'_'` and inserting the leaf at the resulting path. -/
def unflatten_json (l : List (String × α)) : JTree α :=
  l.foldl (fun t e => insertAt t (splitKey e.1) e.2) (.node .nil)

/-- Key membership in a dict entry list. -/
def hasKey : JList α → String → Bool
  | .nil, _ => false
  | .cons k _ rest, s => k = s || hasKey rest s

/-- Tests for a group with no children. -/
def isEmptyNode : JTree α → Bool
  | .node .nil => true
  | _ => false

/-- A name usable in a separator-based round trip: free of the separator
character (it may be empty — empty names still round-trip exactly). -/
def goodKey (k : String) : Bool := !(k.data.contains '_')

mutual
/-- Trees on which the flatten/re-nest round trip is exact: every key is
separator-free, keys are pairwise distinct within each dict, and no
proper subtree is an empty dict. -/
def goodT : JTree α → Bool
  | .leaf _ => true
  | .node kvs => goodL kvs

/-- The entry-list form of `goodT`. -/
def goodL : JList α → Bool
  | .nil => true
  | .cons k t rest =>
    goodKey k && !(hasKey rest k) && !(isEmptyNode t) && goodT t && goodL rest
end

mutual
/-- Leaf entries of a tree as (path, value) pairs with root-relative paths
in traversal order. -/
def pEntries : JTree α → List (List String × α)
  | .leaf x => [([], x)]
  | .node kvs => pEntriesList kvs

/-- Leaf entries contributed by the children of a dict. -/
def pEntriesList : JList α → List (List String × α)
  | .nil => []
  | .cons k t rest =>
    (pEntries t).map (fun e => (k :: e.1, e.2)) ++ pEntriesList rest
end

/-- Concatenation of dict entry lists. -/
def jappend : JList α → JList α → JList α
  | .nil, l => l
  | .cons k t r, l => .cons k t (jappend r l)

/-- Accumulated name prefix of `flatten` after descending through the path
segments `p` with `keep_nested_name=true`: each segment followed by the
separator. -/
def joinP : List String → String
  | [] => ""
  | s :: p => s ++ "_" ++ joinP p

/-- Computed key of a leaf whose root-relative path is `p`: the accumulated
prefix with its trailing separator stripped (`name[:-1]`). -/
def jk (p : List String) : String := strInit (joinP p)

/-- Folding a list of (path, value) entries into a tree by `insertAt`. -/
def foldInsertP (es : List (List String × α)) (t : JTree α) : JTree α :=
  es.foldl (fun t e => insertAt t e.1 e.2) t

/-- Tests that every child of a group is a dataset (leaf-shaped), the form
the spec expects the elements of an ordered group to have. -/
def allDatasets : H5List → Bool
  | .nil => true
  | .cons _ (.dataset _ _) rest => allDatasets rest
  | .cons _ (.group _ _) _ => false

/-- Decimal digit test on a character. -/
def isDigitCh (c : Char) : Bool :=
  c == '0' || c == '1' || c == '2' || c == '3' || c == '4' ||
  c == '5' || c == '6' || c == '7' || c == '8' || c == '9'

/-- Modelled from the spec: a child name that is the textual form of an
integer (nonempty, all decimal digits). -/
def isIntName (s : String) : Bool := !s.data.isEmpty && s.data.all isDigitCh

/-- Modelled from the spec: the count of integer-named children of a group,
the length the spec says an ordered-group reconstruction uses. Compared
against the source's `len(item)`, which counts all children. -/
def specIntegerNamedCount : H5List → Nat
  | .nil => 0
  | .cons k _ rest => (if isIntName k then 1 else 0) + specIntegerNamedCount rest

theorem keysOf_append (l1 l2 : List (String × α)) :
    keysOf (l1 ++ l2) = keysOf l1 ++ keysOf l2 := by
  simp [keysOf]

theorem lookup_append (k : String) (l1 l2 : List (String × α)) :
    (l1 ++ l2).lookup k = ((l1.lookup k).orElse (fun _ => l2.lookup k)) := by
  induction l1 with
  | nil => simp
  | cons p rest ih =>
    obtain ⟨k0, v0⟩ := p
    cases h : k == k0 <;> simp [List.lookup_cons, h, ih]

theorem lookup_eq_none_iff (k : String) (l : List (String × α)) :
    l.lookup k = none ↔ k ∉ keysOf l := by
  induction l with
  | nil => simp [keysOf]
  | cons p rest ih =>
    obtain ⟨k0, v0⟩ := p
    cases h : k == k0
    · have hne : ¬ k = k0 := by simpa using h
      simp [List.lookup_cons, h, keysOf, hne] at *
      exact ih
    · have heq : k = k0 := by simpa using h
      simp [List.lookup_cons, h, keysOf, heq]

theorem lookup_append_eq_none_iff (k : String) (l1 l2 : List (String × α)) :
    (l1 ++ l2).lookup k = none ↔ l1.lookup k = none ∧ l2.lookup k = none := by
  rw [lookup_append]
  rcases h : l1.lookup k with _ | v <;> simp [Option.orElse]

theorem flatCond_append (out e1 e2 : List (String × α)) :
    flatCond out (e1 ++ e2) ↔ flatCond out e1 ∧ flatCond (out ++ e1) e2 := by
  unfold flatCond
  rw [keysOf_append, List.nodup_append]
  constructor
  · rintro ⟨⟨hn1, hn2, hd⟩, hall⟩
    refine ⟨⟨hn1, fun k hk => hall k (List.mem_append.mpr (Or.inl hk))⟩, hn2,
      fun k hk => ?_⟩
    rw [lookup_append_eq_none_iff]
    exact ⟨hall k (List.mem_append.mpr (Or.inr hk)),
      (lookup_eq_none_iff k e1).mpr (fun hm => hd hm hk)⟩
  · rintro ⟨⟨hn1, h1⟩, hn2, h2⟩
    have h2x : ∀ k ∈ keysOf e2, out.lookup k = none ∧ k ∉ keysOf e1 := by
      intro k hk
      have hh := h2 k hk
      rw [lookup_append_eq_none_iff] at hh
      exact ⟨hh.1, (lookup_eq_none_iff k e1).mp hh.2⟩
    refine ⟨⟨hn1, hn2, fun a ha1 ha2 => (h2x a ha2).2 ha1⟩, fun k hk => ?_⟩
    rcases List.mem_append.mp hk with hk | hk
    · exact h1 k hk
    · exact (h2x k hk).1

theorem except_bind_ok {ε β γ : Type} (a : β) (f : β → Except ε γ) :
    (Except.ok a >>= f) = f a := rfl

theorem except_bind_error {ε β γ : Type} (e : ε) (f : β → Except ε γ) :
    ((Except.error e : Except ε β) >>= f) = Except.error e := rfl

theorem flattenAux_char_leaf (keep : Bool) (x : α) (name : String)
    (out : List (String × α)) :
    flattenAux keep (.leaf x) name out =
      if flatCond out (fEntries keep (.leaf x) name) then
        .ok (out ++ fEntries keep (.leaf x) name)
      else
        .error (.valueError "Multiple entries with identical names") := by
  by_cases h : out.lookup (strInit name) = none
  · simp only [flattenAux, fEntries, flatCond, keysOf, List.map_cons, List.map_nil, h,
      Option.isSome_none, Bool.false_eq_true, if_false]
    have hc : [strInit name].Nodup ∧ ∀ k ∈ [strInit name], List.lookup k out = none :=
      ⟨List.nodup_singleton _, by simpa using h⟩
    rw [if_pos hc]
  · have h2 : (out.lookup (strInit name)).isSome = true :=
      Option.isSome_iff_ne_none.mpr h
    simp only [flattenAux, fEntries, flatCond, keysOf, List.map_cons, List.map_nil, h2,
      if_true]
    have hc : ¬([strInit name].Nodup ∧ ∀ k ∈ [strInit name], List.lookup k out = none) := by
      intro hcc
      exact h (hcc.2 _ (List.mem_singleton_self _))
    rw [if_neg hc]

/-- Closed-form characterization of the dict-iteration helper: it succeeds
and appends exactly the traversal's entries when the entry keys are
pairwise distinct and none is already present in `out`; any coincidence of
computed keys makes it raise the fixed `ValueError` instead. -/
theorem flattenListAux_char (keep : Bool) (kvs : JList α) :
    ∀ (name : String) (out : List (String × α)),
      flattenListAux keep kvs name out =
        if flatCond out (fEntriesList keep kvs name) then
          .ok (out ++ fEntriesList keep kvs name)
        else
          .error (.valueError "Multiple entries with identical names") :=
  @JList.rec α
    (fun t => ∀ (name : String) (out : List (String × α)),
      flattenAux keep t name out =
        if flatCond out (fEntries keep t name) then
          .ok (out ++ fEntries keep t name)
        else
          .error (.valueError "Multiple entries with identical names"))
    (fun kvs => ∀ (name : String) (out : List (String × α)),
      flattenListAux keep kvs name out =
        if flatCond out (fEntriesList keep kvs name) then
          .ok (out ++ fEntriesList keep kvs name)
        else
          .error (.valueError "Multiple entries with identical names"))
    (fun x => flattenAux_char_leaf keep x)
    (fun kvs ih => by
      intro name out
      simp only [flattenAux, fEntries]
      exact ih name out)
    (by
      intro name out
      simp [flattenListAux, fEntriesList, flatCond, keysOf])
    (fun key value rest ih1 ih2 => by
      intro name out
      simp only [flattenListAux, fEntriesList]
      rw [ih1 ((if keep then name else "") ++ key ++ "_") out]
      by_cases h1 : flatCond out (fEntries keep value ((if keep then name else "") ++ key ++ "_"))
      · rw [if_pos h1, except_bind_ok, ih2 name _]
        by_cases h2 : flatCond
            (out ++ fEntries keep value ((if keep then name else "") ++ key ++ "_"))
            (fEntriesList keep rest name)
        · rw [if_pos h2, if_pos ((flatCond_append out _ _).mpr ⟨h1, h2⟩),
            List.append_assoc]
        · rw [if_neg h2, if_neg]
          intro hc
          exact h2 ((flatCond_append out _ _).mp hc).2
      · rw [if_neg h1, except_bind_error, if_neg]
        intro hc
        exact h1 ((flatCond_append out _ _).mp hc).1)
    kvs

/-- Closed-form characterization of `flattenAux` on an arbitrary tree. -/
theorem flattenAux_char (keep : Bool) (t : JTree α) (name : String)
    (out : List (String × α)) :
    flattenAux keep t name out =
      if flatCond out (fEntries keep t name) then
        .ok (out ++ fEntries keep t name)
      else
        .error (.valueError "Multiple entries with identical names") := by
  cases t with
  | leaf x => exact flattenAux_char_leaf keep x name out
  | node kvs =>
    simp only [flattenAux, fEntries]
    exact flattenListAux_char keep kvs name out

/-- Closed-form characterization of `flatten_json`: it returns the entry
list of the traversal when the computed keys are pairwise distinct, and
raises the fixed `ValueError` when any two computed keys coincide. -/
theorem flatten_json_char (keep : Bool) (t : JTree α) :
    flatten_json t keep =
      if (keysOf (fEntries keep t "")).Nodup then
        .ok (fEntries keep t "")
      else
        .error (.valueError "Multiple entries with identical names") := by
  rw [flatten_json, flattenAux_char]
  by_cases h : (keysOf (fEntries keep t "")).Nodup
  · rw [if_pos h, if_pos ⟨h, fun k _ => List.lookup_nil⟩, List.nil_append]
  · rw [if_neg h, if_neg]
    intro hc
    exact h hc.1

theorem strInit_concat_sep (s : String) : strInit (s ++ "_") = s := by
  show String.mk ((s.data ++ ['_']).dropLast) = s
  rw [List.dropLast_concat]

theorem fEntriesList_ofPairs (keep : Bool) (l : List (String × α)) :
    fEntriesList keep (ofPairs l) "" = l := by
  induction l with
  | nil => rfl
  | cons p rest ih =>
    obtain ⟨k, v⟩ := p
    show fEntries keep (.leaf v) ((if keep then "" else "") ++ k ++ "_") ++
        fEntriesList keep (ofPairs rest) "" = (k, v) :: rest
    rw [ih]
    have hpre : ((if keep then ("" : String) else "") ++ k ++ "_") = k ++ "_" := by
      cases keep <;> rfl
    rw [fEntries, hpre, strInit_concat_sep]
    rfl

/-! Loader theory. -/

theorem loadGroup_cons_dataset (key : String) (dt : Char) (v : HVal)
    (rest : H5List) :
    loadGroup (.cons key (.dataset dt v) rest) =
      (loadGroup rest) >>= fun d =>
        .ok (.cons key (.val (if dt = 'S' then astypeStr v else v)) d) := rfl

theorem loadGroup_cons_iter (key : String) (gch rest : H5List) :
    loadGroup (.cons key (.group true gch) rest) =
      (readSeq gch 0 (h5len gch)) >>= fun vs =>
        (loadGroup rest) >>= fun d => .ok (.cons key (.list vs) d) := rfl

theorem readSeq_succ (gch : H5List) (start count : Nat) :
    readSeq gch start (count + 1) =
      (readIdx gch start) >>= fun v =>
        (readSeq gch (start + 1) count) >>= fun vs => .ok (v :: vs) := rfl

theorem allDatasets_child : ∀ (gch : H5List) (s : String) (it : H5Item),
    allDatasets gch = true → getChild gch s = some it →
    ∃ dt v, it = .dataset dt v
  | .nil, s, it, _, h => by simp [getChild] at h
  | .cons k (.dataset dt v) rest, s, it, hall, h => by
    rw [getChild] at h
    by_cases hk : k = s
    · rw [if_pos hk] at h
      exact ⟨dt, v, (Option.some_injective _ h).symm⟩
    · rw [if_neg hk] at h
      exact allDatasets_child rest s it (by simpa [allDatasets] using hall) h
  | .cons k (.group b ch) rest, s, it, hall, h => by
    simp [allDatasets] at hall

theorem readSeq_all_present (gch : H5List) (f : Nat → HVal) (g : Nat → Char) :
    ∀ (count start : Nat),
      (∀ i, start ≤ i → i < start + count →
        getChild gch (toString i) = some (.dataset (g i) (f i))) →
      readSeq gch start count = .ok ((List.range' start count).map f) := by
  intro count
  induction count with
  | zero => intro start _; rfl
  | succ count ih =>
    intro start h
    rw [readSeq_succ]
    have h0 : readIdx gch start = .ok (f start) := by
      rw [readIdx, h start (Nat.le_refl start) (by omega)]
    rw [h0, except_bind_ok, ih (start + 1) (fun i h1 h2 => h i (by omega) (by omega)),
      except_bind_ok]
    rfl

theorem readSeq_missing (gch : H5List) (hall : allDatasets gch = true) :
    ∀ (count start i : Nat), start ≤ i → i < start + count →
      getChild gch (toString i) = none →
      ∃ j, start ≤ j ∧ j < start + count ∧ getChild gch (toString j) = none ∧
        readSeq gch start count = .error (.keyError (toString j)) := by
  intro count
  induction count with
  | zero => intro start i h1 h2 _; omega
  | succ count ih =>
    intro start i h1 h2 hmiss
    cases h0 : getChild gch (toString start) with
    | none =>
      refine ⟨start, Nat.le_refl start, by omega, h0, ?_⟩
      rw [readSeq_succ, readIdx, h0]
      rfl
    | some it =>
      have hne : i ≠ start := by
        intro he
        rw [he, h0] at hmiss
        exact Option.noConfusion hmiss
      obtain ⟨j, hj1, hj2, hj3, hj4⟩ :=
        ih (start + 1) i (by omega) (by omega) hmiss
      refine ⟨j, by omega, by omega, hj3, ?_⟩
      obtain ⟨dt, v, hdt⟩ := allDatasets_child gch (toString start) it hall h0
      rw [readSeq_succ, readIdx, h0, hdt, except_bind_ok, hj4, except_bind_error]

theorem readSeq_get (gch : H5List) :
    ∀ (count start : Nat) (vs : List HVal), readSeq gch start count = .ok vs →
      ∀ (i : Nat), i < count → ∀ (dt : Char) (v : HVal),
        getChild gch (toString (start + i)) = some (.dataset dt v) →
        vs.get? i = some v := by
  intro count
  induction count with
  | zero => intro start vs _ i hi; omega
  | succ count ih =>
    intro start vs hvs i hi dt v hc
    rw [readSeq_succ] at hvs
    cases hr : readIdx gch start with
    | error e => rw [hr, except_bind_error] at hvs; exact Except.noConfusion hvs
    | ok v0 =>
      rw [hr, except_bind_ok] at hvs
      cases hs : readSeq gch (start + 1) count with
      | error e => rw [hs, except_bind_error] at hvs; exact Except.noConfusion hvs
      | ok vs1 =>
        rw [hs, except_bind_ok] at hvs
        have hvs2 : vs = v0 :: vs1 := (Except.ok.injEq _ _).mp hvs |>.symm
        subst hvs2
        cases i with
        | zero =>
          have hc0 : getChild gch (toString start) = some (.dataset dt v) := by
            simpa using hc
          rw [readIdx, hc0] at hr
          have : v = v0 := (Except.ok.injEq _ _).mp hr
          simp [this]
        | succ i =>
          have hc1 : getChild gch (toString (start + 1 + i)) = some (.dataset dt v) := by
            have : start + 1 + i = start + (i + 1) := by omega
            rw [this]
            exact hc
          exact ih (start + 1) vs1 hs i (by omega) dt v hc1

/-! Round-trip theory: keys as joined paths, splitting as their inverse. -/

theorem sep_data : ("_" : String).data = ['_'] := rfl

theorem string_mk_data (s : String) : String.mk s.data = s := rfl

theorem joinP_snoc (pre : List String) (k : String) :
    joinP (pre ++ [k]) = joinP pre ++ k ++ "_" := by
  induction pre with
  | nil => simp [joinP]
  | cons s pre ih => simp [joinP, ih, String.append_assoc]

theorem joinP_data_cons (s : String) (p : List String) :
    (joinP (s :: p)).data = s.data ++ '_' :: (joinP p).data := by
  show (s ++ "_" ++ joinP p).data = _
  rw [String.data_append, String.data_append, sep_data, List.append_assoc]
  rfl

theorem joinP_data_ne_nil (s : String) (p : List String) :
    (joinP (s :: p)).data ≠ [] := by
  rw [joinP_data_cons]
  simp

theorem jk_single_data (s : String) : (jk [s]).data = s.data := by
  show ((joinP [s]).data).dropLast = s.data
  rw [joinP_data_cons]
  show (s.data ++ ['_']).dropLast = s.data
  rw [List.dropLast_concat]

theorem jk_cons_data (s : String) (t : List String) (ht : t ≠ []) :
    (jk (s :: t)).data = s.data ++ '_' :: (jk t).data := by
  obtain ⟨s2, t2, rfl⟩ : ∃ s2 t2, t = s2 :: t2 := by
    cases t with
    | nil => exact absurd rfl ht
    | cons a b => exact ⟨a, b, rfl⟩
  show ((joinP (s :: s2 :: t2)).data).dropLast = _
  rw [joinP_data_cons, List.dropLast_append_cons,
    List.dropLast_cons_of_ne_nil (joinP_data_ne_nil s2 t2)]
  rfl

theorem goodKey_spec (k : String) :
    goodKey k = true ↔ '_' ∉ k.data := by
  simp [goodKey, List.contains]

theorem splitCh_no_sep (a : List Char) (ha : '_' ∉ a) : splitCh a = [a] := by
  induction a with
  | nil => rfl
  | cons c a ih =>
    have hc : ¬ c = '_' := fun he => ha (he ▸ List.mem_cons_self c a)
    rw [splitCh, if_neg hc, ih (fun hm => ha (List.mem_cons_of_mem c hm))]

theorem splitCh_append_sep (a rest : List Char) (ha : '_' ∉ a) :
    splitCh (a ++ '_' :: rest) = a :: splitCh rest := by
  induction a with
  | nil => rw [List.nil_append, splitCh, if_pos rfl]
  | cons c a ih =>
    have hc : ¬ c = '_' := fun he => ha (he ▸ List.mem_cons_self c a)
    rw [List.cons_append, splitCh, if_neg hc,
      ih (fun hm => ha (List.mem_cons_of_mem c hm))]

theorem splitKey_jk : ∀ (p : List String), p ≠ [] →
    (∀ s ∈ p, goodKey s = true) → splitKey (jk p) = p
  | [], h, _ => absurd rfl h
  | [s], _, hg => by
    have hs := (goodKey_spec s).mp (hg s (List.mem_singleton_self s))
    rw [splitKey, jk_single_data, splitCh_no_sep s.data hs]
    rw [List.map_singleton, string_mk_data]
  | s :: s2 :: t2, _, hg => by
    have hs := (goodKey_spec s).mp (hg s (List.mem_cons_self _ _))
    have ih := splitKey_jk (s2 :: t2) (by simp)
      (fun x hx => hg x (List.mem_cons_of_mem s hx))
    rw [splitKey, jk_cons_data s (s2 :: t2) (by simp),
      splitCh_append_sep s.data _ hs, List.map_cons, string_mk_data]
    rw [splitKey] at ih
    rw [ih]

theorem goodL_cons_iff (k : String) (t : JTree α) (rest : JList α) :
    goodL (.cons k t rest) = true ↔
      goodKey k = true ∧ hasKey rest k = false ∧ isEmptyNode t = false ∧
      goodT t = true ∧ goodL rest = true := by
  rw [goodL]
  simp only [Bool.and_eq_true, Bool.not_eq_true']
  tauto

mutual
theorem fEntries_join : ∀ (t : JTree α) (pre : List String),
    fEntries true t (joinP pre) = (pEntries t).map (fun e => (jk (pre ++ e.1), e.2))
  | .leaf x, pre => by
    rw [fEntries, pEntries]
    simp [jk]
  | .node kvs, pre => by
    rw [fEntries, pEntries]
    exact fEntriesList_join kvs pre

theorem fEntriesList_join : ∀ (kvs : JList α) (pre : List String),
    fEntriesList true kvs (joinP pre)
      = (pEntriesList kvs).map (fun e => (jk (pre ++ e.1), e.2))
  | .nil, _ => rfl
  | .cons k t rest, pre => by
    rw [fEntriesList, pEntriesList]
    have h1 : ((if true then joinP pre else "") ++ k ++ "_") = joinP (pre ++ [k]) := by
      rw [if_pos rfl, joinP_snoc]
    rw [h1, fEntries_join t (pre ++ [k]), fEntriesList_join rest pre]
    rw [List.map_append, List.map_map]
    congr 1
    apply List.map_congr_left
    intro e _
    simp [Function.comp, List.append_assoc]
end

theorem pEntriesList_head : ∀ (kvs : JList α) (e : List String × α),
    e ∈ pEntriesList kvs → ∃ k p, e.1 = k :: p ∧ hasKey kvs k = true
  | .nil, e, he => by
    rw [pEntriesList] at he
    exact absurd he (List.not_mem_nil e)
  | .cons k t rest, e, he => by
    rw [pEntriesList] at he
    rcases List.mem_append.mp he with h | h
    · obtain ⟨e0, _, heq⟩ := List.mem_map.mp h
      exact ⟨k, e0.1, by rw [← heq], by simp [hasKey]⟩
    · obtain ⟨k2, p2, h1, h2⟩ := pEntriesList_head rest e h
      exact ⟨k2, p2, h1, by simp [hasKey, h2]⟩

mutual
theorem pEntries_paths_good : ∀ (t : JTree α), goodT t = true →
    ∀ e ∈ pEntries t, ∀ s ∈ e.1, goodKey s = true
  | .leaf x, _, e, he, s, hs => by
    rw [pEntries, List.mem_singleton] at he
    subst he
    exact absurd hs (List.not_mem_nil s)
  | .node kvs, hg, e, he, s, hs => by
    rw [pEntries] at he
    rw [goodT] at hg
    exact pEntriesList_paths_good kvs hg e he s hs

theorem pEntriesList_paths_good : ∀ (kvs : JList α), goodL kvs = true →
    ∀ e ∈ pEntriesList kvs, ∀ s ∈ e.1, goodKey s = true
  | .nil, _, e, he, _, _ => by
    rw [pEntriesList] at he
    exact absurd he (List.not_mem_nil e)
  | .cons k t rest, hg, e, he, s, hs => by
    obtain ⟨hk, _, _, hgt, hgr⟩ := (goodL_cons_iff k t rest).mp hg
    rw [pEntriesList] at he
    rcases List.mem_append.mp he with h | h
    · obtain ⟨e0, he0, heq⟩ := List.mem_map.mp h
      rw [← heq] at hs
      rcases List.mem_cons.mp hs with hs1 | hs2
      · rw [hs1]; exact hk
      · exact pEntries_paths_good t hgt e0 he0 s hs2
    · exact pEntriesList_paths_good rest hgr e h s hs
end

mutual
theorem pEntries_paths_nodup : ∀ (t : JTree α), goodT t = true →
    ((pEntries t).map Prod.fst).Nodup
  | .leaf x, _ => by
    rw [pEntries]
    simp
  | .node kvs, hg => by
    rw [pEntries]
    rw [goodT] at hg
    exact pEntriesList_paths_nodup kvs hg

theorem pEntriesList_paths_nodup : ∀ (kvs : JList α), goodL kvs = true →
    ((pEntriesList kvs).map Prod.fst).Nodup
  | .nil, _ => by
    rw [pEntriesList]
    simp
  | .cons k t rest, hg => by
    obtain ⟨_, hnk, _, hgt, hgr⟩ := (goodL_cons_iff k t rest).mp hg
    rw [pEntriesList, List.map_append, List.map_map]
    rw [List.nodup_append]
    refine ⟨?_, pEntriesList_paths_nodup rest hgr, ?_⟩
    · have hcomp : (Prod.fst ∘ fun e : List String × α => (k :: e.1, e.2))
          = (fun p => k :: p) ∘ Prod.fst := rfl
      rw [hcomp, ← List.map_map]
      exact (pEntries_paths_nodup t hgt).map List.cons_injective
    · intro a ha1 ha2
      obtain ⟨e0, _, heq0⟩ := List.mem_map.mp ha1
      obtain ⟨e2, he2, heq2⟩ := List.mem_map.mp ha2
      obtain ⟨k2, p2, hp1, hp2⟩ := pEntriesList_head rest e2 he2
      have hak : a = k :: e0.1 := heq0.symm
      have hak2 : a = k2 :: p2 := by rw [← heq2, hp1]
      have hkk : k = k2 := by
        have := hak ▸ hak2
        exact (List.cons.injEq _ _ _ _).mp this |>.1
      rw [← hkk] at hp2
      rw [hp2] at hnk
      exact Bool.noConfusion hnk
end

theorem jappend_nil : ∀ (l : JList α), jappend l .nil = l
  | .nil => rfl
  | .cons k t r => by rw [jappend, jappend_nil r]

theorem jappend_cons_assoc : ∀ (acc : JList α) (k : String) (t : JTree α)
    (rest : JList α),
    jappend (jappend acc (.cons k t .nil)) rest = jappend acc (.cons k t rest)
  | .nil, _, _, _ => rfl
  | .cons k0 t0 r0, k, t, rest => by
    rw [jappend, jappend, jappend, jappend_cons_assoc r0 k t rest]

theorem hasKey_jappend : ∀ (a b : JList α) (s : String),
    hasKey (jappend a b) s = (hasKey a s || hasKey b s)
  | .nil, b, s => by rw [jappend, hasKey, Bool.false_or]
  | .cons k t r, b, s => by
    rw [jappend, hasKey, hasKey, hasKey_jappend r b s, Bool.or_assoc]

theorem insertL_absent : ∀ (acc : JList α) (s : String) (f : JTree α → JTree α),
    hasKey acc s = false →
    insertL acc s f = jappend acc (.cons s (f (.node .nil)) .nil)
  | .nil, _, _, _ => rfl
  | .cons k t r, s, f, h => by
    rw [hasKey] at h
    simp only [Bool.or_eq_false_iff, decide_eq_false_iff_not] at h
    rw [insertL, if_neg h.1, insertL_absent r s f h.2, jappend]

theorem insertL_found : ∀ (acc : JList α) (s : String) (c : JTree α)
    (f : JTree α → JTree α),
    hasKey acc s = false →
    insertL (jappend acc (.cons s c .nil)) s f = jappend acc (.cons s (f c) .nil)
  | .nil, s, c, f, _ => by
    rw [jappend, insertL, if_pos rfl, jappend]
  | .cons k t r, s, c, f, h => by
    rw [hasKey] at h
    simp only [Bool.or_eq_false_iff, decide_eq_false_iff_not] at h
    rw [jappend, insertL, if_neg h.1, insertL_found r s c f h.2, jappend]

theorem foldInsertP_cons (e : List String × α) (es : List (List String × α))
    (t : JTree α) :
    foldInsertP (e :: es) t = foldInsertP es (insertAt t e.1 e.2) := rfl

theorem foldInsertP_append (a b : List (List String × α)) (t : JTree α) :
    foldInsertP (a ++ b) t = foldInsertP b (foldInsertP a t) := by
  simp [foldInsertP, List.foldl_append]

theorem insertAt_fresh (acc : JList α) (s : String) (rest : List String) (v : α)
    (h : hasKey acc s = false) :
    insertAt (.node acc) (s :: rest) v
      = .node (jappend acc (.cons s (insertAt (.node .nil) rest v) .nil)) := by
  show JTree.node (insertL acc s (fun sub => insertAt sub rest v)) = _
  rw [insertL_absent acc s _ h]

theorem insertAt_under (acc : JList α) (s : String) (c : JTree α)
    (rest : List String) (v : α) (h : hasKey acc s = false) :
    insertAt (.node (jappend acc (.cons s c .nil))) (s :: rest) v
      = .node (jappend acc (.cons s (insertAt c rest v) .nil)) := by
  show JTree.node (insertL (jappend acc (.cons s c .nil)) s
    (fun sub => insertAt sub rest v)) = _
  rw [insertL_found acc s c _ h]

theorem fold_under_key (k : String) (es : List (List String × α)) :
    ∀ (acc : JList α) (c : JTree α), hasKey acc k = false →
    foldInsertP (es.map (fun e => (k :: e.1, e.2)))
        (.node (jappend acc (.cons k c .nil)))
      = .node (jappend acc (.cons k (foldInsertP es c) .nil)) := by
  induction es with
  | nil => intro acc c _; rfl
  | cons e es ih =>
    intro acc c h
    rw [List.map_cons, foldInsertP_cons]
    show foldInsertP (es.map (fun e => (k :: e.1, e.2)))
        (insertAt (.node (jappend acc (.cons k c .nil))) (k :: e.1) e.2) = _
    rw [insertAt_under acc k c e.1 e.2 h, ih acc (insertAt c e.1 e.2) h,
      foldInsertP_cons]

theorem fold_child (k : String) (t : JTree α) (acc : JList α)
    (hk : hasKey acc k = false) (hne : pEntries t ≠ [])
    (hrec : foldInsertP (pEntries t) (.node .nil) = t) :
    foldInsertP ((pEntries t).map (fun e => (k :: e.1, e.2))) (.node acc)
      = .node (jappend acc (.cons k t .nil)) := by
  obtain ⟨e0, es, hE⟩ : ∃ e0 es, pEntries t = e0 :: es := by
    cases hE : pEntries t with
    | nil => exact absurd hE hne
    | cons a b => exact ⟨a, b, rfl⟩
  rw [hE] at hrec ⊢
  rw [List.map_cons, foldInsertP_cons]
  show foldInsertP ((es.map (fun e => (k :: e.1, e.2))))
      (insertAt (.node acc) (k :: e0.1) e0.2) = _
  rw [insertAt_fresh acc k e0.1 e0.2 hk,
    fold_under_key k es acc (insertAt (.node .nil) e0.1 e0.2) hk,
    ← foldInsertP_cons e0 es, hrec]

theorem pEntries_ne_nil : ∀ (t : JTree α), goodT t = true →
    isEmptyNode t = false → pEntries t ≠ []
  | .leaf x, _, _ => by
    rw [pEntries]
    simp
  | .node .nil, _, he => by
    simp [isEmptyNode] at he
  | .node (.cons k t2 rest), hg, _ => by
    rw [goodT] at hg
    obtain ⟨_, _, hne2, hgt2, _⟩ := (goodL_cons_iff k t2 rest).mp hg
    have h2 := pEntries_ne_nil t2 hgt2 hne2
    rw [pEntries, pEntriesList]
    intro hcontra
    rcases List.append_eq_nil.mp hcontra with ⟨h3, _⟩
    exact h2 (List.map_eq_nil_iff.mp h3)

mutual
theorem foldInsert_pEntries : ∀ (t : JTree α), goodT t = true →
    foldInsertP (pEntries t) (.node .nil) = t
  | .leaf x, _ => rfl
  | .node kvs, hg => by
    rw [pEntries]
    rw [goodT] at hg
    rw [foldInsert_pEntriesList kvs hg .nil (fun k' _ => rfl)]
    rw [jappend]

theorem foldInsert_pEntriesList : ∀ (kvs : JList α), goodL kvs = true →
    ∀ (acc : JList α), (∀ k', hasKey kvs k' = true → hasKey acc k' = false) →
    foldInsertP (pEntriesList kvs) (.node acc) = .node (jappend acc kvs)
  | .nil, _, acc, _ => by
    rw [pEntriesList, jappend_nil]
    rfl
  | .cons k t rest, hg, acc, hfresh => by
    obtain ⟨hgk, hnk, hne, hgt, hgr⟩ := (goodL_cons_iff k t rest).mp hg
    rw [pEntriesList, foldInsertP_append]
    have hacck : hasKey acc k = false := hfresh k (by simp [hasKey])
    rw [fold_child k t acc hacck (pEntries_ne_nil t hgt hne)
      (foldInsert_pEntries t hgt)]
    have hfresh2 : ∀ k', hasKey rest k' = true →
        hasKey (jappend acc (.cons k t .nil)) k' = false := by
      intro k' hk'
      rw [hasKey_jappend]
      have h1 : hasKey acc k' = false := hfresh k' (by simp [hasKey, hk'])
      have h2 : ¬ k = k' := by
        intro he
        rw [he] at hnk
        rw [hnk] at hk'
        exact Bool.noConfusion hk'
      simp [h1, hasKey, h2]
    rw [foldInsert_pEntriesList rest hgr (jappend acc (.cons k t .nil)) hfresh2]
    rw [jappend_cons_assoc]
end

theorem fEntries_root_join (kvs : JList α) :
    fEntries true (JTree.node kvs) ""
      = (pEntriesList kvs).map (fun e => (jk e.1, e.2)) := by
  have h0 := fEntries_join (JTree.node kvs) []
  rw [show joinP ([] : List String) = "" from rfl] at h0
  simp only [pEntries, List.nil_append] at h0
  exact h0

/-! Claim theorems. -/

/-- C1 (counterexample): the collision error raised by `flatten_json` does
not carry the offending key. The code raises
`ValueError("Multiple entries with identical names")`, a fixed message:
two trees whose offending keys differ (`"a"` and `"c"`) produce the very
same error value, so the error cannot carry the key, and in particular it
is not `DuplicateKey("a")`. -/
theorem flatten_collision_error_is_keyless_cex :
    flatten_json (JTree.node (.cons "a" (.leaf (1 : Int))
        (.cons "b" (.node (.cons "a" (.leaf 2) .nil)) .nil))) false
      = .error (.valueError "Multiple entries with identical names") ∧
    flatten_json (JTree.node (.cons "c" (.leaf (1 : Int))
        (.cons "b" (.node (.cons "c" (.leaf 2) .nil)) .nil))) false
      = flatten_json (JTree.node (.cons "a" (.leaf (1 : Int))
        (.cons "b" (.node (.cons "a" (.leaf 2) .nil)) .nil))) false ∧
    PyError.valueError "Multiple entries with identical names"
      ≠ .valueError "a" := by
  refine ⟨by decide, by decide, by decide⟩

/-- C1 (amended): whenever two leaves' computed keys coincide (in either
naming mode), `flatten_json` checks before inserting and fails with the
fixed error `ValueError("Multiple entries with identical names")` — which
does not carry the offending key — producing no output mapping; it never
resolves the collision by overwriting. -/
theorem flatten_collision_raises_fixed_valueerror (t : JTree α) (keep : Bool)
    (h : ¬ (keysOf (fEntries keep t "")).Nodup) :
    flatten_json t keep = .error (.valueError "Multiple entries with identical names") := by
  rw [flatten_json_char, if_neg h]

/-- Witness for the amended C1 theorem at the spec's own example,
`{a: 1, b: {a: 2}}` with `keep_nested_name=false`. -/
theorem flatten_collision_raises_fixed_valueerror_witness :
    (¬ (keysOf (fEntries false (JTree.node (.cons "a" (.leaf (1 : Int))
        (.cons "b" (.node (.cons "a" (.leaf 2) .nil)) .nil))) "")).Nodup) ∧
    flatten_json (JTree.node (.cons "a" (.leaf (1 : Int))
        (.cons "b" (.node (.cons "a" (.leaf 2) .nil)) .nil))) false
      = .error (.valueError "Multiple entries with identical names") :=
  ⟨by decide, flatten_collision_raises_fixed_valueerror _ false (by decide)⟩

/-- C2 (counterexample): a fixed-width byte-string dataset that is an
element of a marked ordered (`_iterable`) group is exposed raw, not
decoded to text: loading `{g: iterable group with "0" ↦ dataset of dtype
char S and value bytes ["ab"]}` returns the raw `bytes ["ab"]` element,
although its decoded form `text ["ab"]` is a different value. -/
theorem load_iterable_bytes_not_decoded_cex :
    loadGroup (.cons "g" (.group true
        (.cons "0" (.dataset 'S' (.bytes ["ab"])) .nil)) .nil)
      = .ok (.cons "g" (.list [HVal.bytes ["ab"]]) .nil) ∧
    astypeStr (.bytes ["ab"]) = .text ["ab"] ∧
    HVal.bytes ["ab"] ≠ HVal.text ["ab"] := by
  refine ⟨by decide, by decide, by decide⟩

/-- C2 (amended): a dataset met as a direct child during dict traversal is
decoded elementwise to text exactly when its dtype character is `S` and
stored raw otherwise, while an element of a marked ordered group is read
raw — `item[str(i)][()]` — with no decoding applied, whatever its dtype. -/
theorem load_text_decoding_amended
    (key : String) (dt : Char) (v : HVal) (rest : H5List)
    (gch : H5List) (count i : Nat) (vs : List HVal) (dti : Char) (vi : HVal)
    (hvs : readSeq gch 0 count = .ok vs) (hi : i < count)
    (hc : getChild gch (toString i) = some (.dataset dti vi)) :
    loadGroup (.cons key (.dataset dt v) rest) =
      (loadGroup rest) >>= (fun d =>
        .ok (.cons key (.val (if dt = 'S' then astypeStr v else v)) d)) ∧
    vs.get? i = some vi := by
  refine ⟨loadGroup_cons_dataset key dt v rest, ?_⟩
  apply readSeq_get gch count 0 vs hvs i hi dti vi
  simpa using hc

/-- Witness for the amended C2 theorem: a dict-level `S` dataset is
decoded, while the `S` element of an iterable group is passed through
raw. -/
theorem load_text_decoding_amended_witness :
    readSeq (.cons "0" (.dataset 'S' (.bytes ["ab"])) .nil) 0 1
        = .ok [HVal.bytes ["ab"]] ∧
    (0 : Nat) < 1 ∧
    getChild (.cons "0" (.dataset 'S' (.bytes ["ab"])) .nil) (toString 0)
        = some (.dataset 'S' (.bytes ["ab"])) ∧
    (loadGroup (.cons "d" (.dataset 'S' (.bytes ["cd"])) .nil) =
      (loadGroup .nil) >>= (fun d =>
        .ok (.cons "d" (.val (if 'S' = 'S' then astypeStr (.bytes ["cd"])
          else (.bytes ["cd"]))) d)) ∧
    [HVal.bytes ["ab"]].get? 0 = some (HVal.bytes ["ab"])) :=
  ⟨by decide, by decide, by decide,
    load_text_decoding_amended "d" 'S' (.bytes ["cd"]) .nil
      (.cons "0" (.dataset 'S' (.bytes ["ab"])) .nil) 1 0 [HVal.bytes ["ab"]]
      'S' (.bytes ["ab"]) (by decide) (by decide) (by decide)⟩

/-- C3 (counterexample): the loader does not determine an ordered group's
length as the count of integer-named children; it uses `len(item)`, the
total child count. In a marked group with children `"0"` (a dataset) and
`"x"`, the integer-named count is 1 and the claim predicts a 1-element
sequence, but the code computes length 2, reads `"1"`, and raises
`KeyError("1")`. -/
theorem load_iterable_length_not_integer_named_cex :
    specIntegerNamedCount (.cons "0" (.dataset 'i' (.ints [0]))
        (.cons "x" (.dataset 'i' (.ints [7])) .nil)) = 1 ∧
    getChild (.cons "0" (.dataset 'i' (.ints [0]))
        (.cons "x" (.dataset 'i' (.ints [7])) .nil)) "0"
      = some (.dataset 'i' (.ints [0])) ∧
    loadGroup (.cons "g" (.group true (.cons "0" (.dataset 'i' (.ints [0]))
        (.cons "x" (.dataset 'i' (.ints [7])) .nil))) .nil)
      = .error (.keyError "1") := by
  refine ⟨by decide, by decide, by decide⟩

/-- C3 (amended): for a group whose marker attribute is true, the loader
determines the length as the total count of children (`len(item)`), and
when the children `"0"`, ..., `"n-1"` are present datasets it returns
their values as an n-element sequence in ascending index order,
regardless of the physical storage order of the children. -/
theorem load_iterable_reads_ascending_total_count
    (key : String) (gch rest : H5List) (n : Nat) (f : Nat → HVal)
    (g : Nat → Char) (hn : h5len gch = n)
    (hall : ∀ i, i < n → getChild gch (toString i) = some (.dataset (g i) (f i))) :
    loadGroup (.cons key (.group true gch) rest) =
      (loadGroup rest) >>= fun d =>
        .ok (.cons key (.list ((List.range n).map f)) d) := by
  rw [loadGroup_cons_iter, hn,
    readSeq_all_present gch f g n 0 (fun i h1 h2 => hall i (by omega)),
    except_bind_ok, List.range_eq_range']

/-- Witness for the amended C3 theorem: a marked group with children
stored in the scrambled order "1", "0" still loads as the ascending
2-element sequence. -/
theorem load_iterable_reads_ascending_total_count_witness :
    h5len (.cons "1" (.dataset 'i' (.ints [11]))
        (.cons "0" (.dataset 'i' (.ints [10])) .nil)) = 2 ∧
    loadGroup (.cons "g" (.group true (.cons "1" (.dataset 'i' (.ints [11]))
        (.cons "0" (.dataset 'i' (.ints [10])) .nil))) .nil) =
      (loadGroup .nil) >>= fun d =>
        .ok (.cons "g" (.list ((List.range 2).map
          (fun i => HVal.ints [10 + 1 * (i : Int)]))) d) :=
  ⟨by decide,
    load_iterable_reads_ascending_total_count "g"
      (.cons "1" (.dataset 'i' (.ints [11]))
        (.cons "0" (.dataset 'i' (.ints [10])) .nil)) .nil 2
      (fun i => HVal.ints [10 + 1 * (i : Int)]) (fun _ => 'i') (by decide)
      (by decide)⟩

/-- C4: in a marked ordered group whose children are datasets, if a child
named by an expected index below the determined length `len(item)` is
absent, the load of the enclosing dict raises `KeyError` (the store
layer's NotFound) at a missing index rather than returning a shorter
sequence; nothing is retried or defaulted. -/
theorem load_iterable_missing_child_raises_keyerror
    (key : String) (gch rest : H5List) (i : Nat)
    (hall : allDatasets gch = true) (hi : i < h5len gch)
    (hmiss : getChild gch (toString i) = none) :
    ∃ j, j < h5len gch ∧ getChild gch (toString j) = none ∧
      loadGroup (.cons key (.group true gch) rest)
        = .error (.keyError (toString j)) := by
  obtain ⟨j, hj1, hj2, hj3, hj4⟩ :=
    readSeq_missing gch hall (h5len gch) 0 i (Nat.zero_le i) (by omega) hmiss
  refine ⟨j, by omega, hj3, ?_⟩
  rw [loadGroup_cons_iter, hj4, except_bind_error]

/-- Witness for C4 at the spec's scenario: deleting `"2"` from a declared
5-element group (children "0", "1", "3", "4" remain, so `len(item)` is 4
and index 2 is expected but absent) makes the load raise `KeyError`. -/
theorem load_iterable_missing_child_raises_keyerror_witness :
    allDatasets (.cons "0" (.dataset 'i' (.ints [0]))
        (.cons "1" (.dataset 'i' (.ints [1]))
          (.cons "3" (.dataset 'i' (.ints [3]))
            (.cons "4" (.dataset 'i' (.ints [4])) .nil)))) = true ∧
    2 < h5len (.cons "0" (.dataset 'i' (.ints [0]))
        (.cons "1" (.dataset 'i' (.ints [1]))
          (.cons "3" (.dataset 'i' (.ints [3]))
            (.cons "4" (.dataset 'i' (.ints [4])) .nil)))) ∧
    getChild (.cons "0" (.dataset 'i' (.ints [0]))
        (.cons "1" (.dataset 'i' (.ints [1]))
          (.cons "3" (.dataset 'i' (.ints [3]))
            (.cons "4" (.dataset 'i' (.ints [4])) .nil)))) (toString 2) = none ∧
    (∃ j, j < h5len (.cons "0" (.dataset 'i' (.ints [0]))
        (.cons "1" (.dataset 'i' (.ints [1]))
          (.cons "3" (.dataset 'i' (.ints [3]))
            (.cons "4" (.dataset 'i' (.ints [4])) .nil)))) ∧
      getChild (.cons "0" (.dataset 'i' (.ints [0]))
        (.cons "1" (.dataset 'i' (.ints [1]))
          (.cons "3" (.dataset 'i' (.ints [3]))
            (.cons "4" (.dataset 'i' (.ints [4])) .nil)))) (toString j) = none ∧
      loadGroup (.cons "g" (.group true (.cons "0" (.dataset 'i' (.ints [0]))
        (.cons "1" (.dataset 'i' (.ints [1]))
          (.cons "3" (.dataset 'i' (.ints [3]))
            (.cons "4" (.dataset 'i' (.ints [4])) .nil))))) .nil)
        = .error (.keyError (toString j))) :=
  ⟨by decide, by decide, by decide,
    load_iterable_missing_child_raises_keyerror "g" _ .nil 2 (by decide)
      (by decide) (by decide)⟩

/-- C5 (counterexample): the flatten / re-nest round trip fails on a tree
with unique full-path names as soon as a name contains the separator:
`{a_b: 1}` (a single leaf, so paths are trivially unique) flattens to
`{"a_b": 1}`, but splitting the key on `'_'` re-nests it as
`{a: {b: 1}}`, which is not isomorphic to the original (the leaf moved
from the path ["a_b"] to the path ["a", "b"]). -/
theorem flatten_roundtrip_underscore_cex :
    flatten_json (JTree.node (.cons "a_b" (.leaf (1 : Int)) .nil)) true
      = .ok [("a_b", 1)] ∧
    unflatten_json [("a_b", (1 : Int))]
      = JTree.node (.cons "a" (.node (.cons "b" (.leaf 1) .nil)) .nil) ∧
    JTree.node (.cons "a" (.node (.cons "b" (.leaf (1 : Int)) .nil)) .nil)
      ≠ JTree.node (.cons "a_b" (.leaf 1) .nil) := by
  refine ⟨by decide, by decide, by decide⟩

/-- C5 (amended): for a tree whose names are separator-free (they may be
empty) and pairwise distinct within each dict, and which has no empty
sub-dict (the conditions forced by the counterexamples: a name containing
`'_'` or an empty subtree breaks the round trip), flattening with
`keep_nested_name=true` succeeds and re-nesting the result by splitting
each key on `'_'` reconstructs exactly the original tree, with the same
leaf values at the same paths. -/
theorem flatten_unflatten_roundtrip (kvs : JList α) (h : goodL kvs = true) :
    ∃ l, flatten_json (.node kvs) true = .ok l ∧ unflatten_json l = .node kvs := by
  have hjoin := fEntries_root_join kvs
  have hgood : ∀ e ∈ pEntriesList kvs, e.1 ≠ [] ∧ ∀ s ∈ e.1, goodKey s = true := by
    intro e he
    refine ⟨?_, fun s hs => pEntriesList_paths_good kvs h e he s hs⟩
    obtain ⟨k2, p2, hp, _⟩ := pEntriesList_head kvs e he
    rw [hp]
    simp
  have hnd : ((pEntriesList kvs).map Prod.fst).Nodup := pEntriesList_paths_nodup kvs h
  have hknd : (keysOf (fEntries true (JTree.node kvs) "")).Nodup := by
    rw [hjoin]
    have hkeys : keysOf ((pEntriesList kvs).map (fun e => (jk e.1, e.2)))
        = ((pEntriesList kvs).map Prod.fst).map jk := by
      simp [keysOf, List.map_map]
    rw [hkeys]
    apply List.Nodup.map_on ?_ hnd
    intro x hx y hy hxy
    obtain ⟨ex, hex, hx1⟩ := List.mem_map.mp hx
    obtain ⟨ey, hey, hy1⟩ := List.mem_map.mp hy
    subst hx1
    subst hy1
    obtain ⟨hxne, hxg⟩ := hgood ex hex
    obtain ⟨hyne, hyg⟩ := hgood ey hey
    calc ex.1 = splitKey (jk ex.1) := (splitKey_jk ex.1 hxne hxg).symm
      _ = splitKey (jk ey.1) := by rw [hxy]
      _ = ey.1 := splitKey_jk ey.1 hyne hyg
  refine ⟨fEntries true (JTree.node kvs) "", by rw [flatten_json_char, if_pos hknd], ?_⟩
  rw [hjoin]
  show ((pEntriesList kvs).map (fun e => (jk e.1, e.2))).foldl
      (fun t e => insertAt t (splitKey e.1) e.2) (JTree.node .nil) = JTree.node kvs
  have hswap : ((pEntriesList kvs).map (fun e => (jk e.1, e.2))).foldl
      (fun t e => insertAt t (splitKey e.1) e.2) (JTree.node .nil)
      = foldInsertP ((pEntriesList kvs).map (fun e => (splitKey (jk e.1), e.2)))
          (JTree.node .nil) := by
    simp only [foldInsertP]
    rw [List.foldl_map, List.foldl_map]
  have hE : (pEntriesList kvs).map (fun e => (splitKey (jk e.1), e.2))
      = pEntriesList kvs := by
    conv_rhs => rw [← List.map_id (pEntriesList kvs)]
    apply List.map_congr_left
    intro e he
    obtain ⟨hne, hgd⟩ := hgood e he
    rw [splitKey_jk e.1 hne hgd]
    simp
  rw [hswap, hE, foldInsert_pEntriesList kvs h .nil (fun k' _ => rfl), jappend]

/-- Witness for the amended C5 theorem on `{a: {b: 1, c: 2}}`. -/
theorem flatten_unflatten_roundtrip_witness :
    goodL (.cons "a" (.node (.cons "b" (.leaf (1 : Int))
        (.cons "c" (.leaf 2) .nil))) .nil) = true ∧
    ∃ l, flatten_json (.node (.cons "a" (.node (.cons "b" (.leaf (1 : Int))
        (.cons "c" (.leaf 2) .nil))) .nil)) true = .ok l ∧
      unflatten_json l = .node (.cons "a" (.node (.cons "b" (.leaf (1 : Int))
        (.cons "c" (.leaf 2) .nil))) .nil) :=
  ⟨by decide, flatten_unflatten_roundtrip _ (by decide)⟩

/-- C6: flattening `{a: {b: 1, c: 2}}` yields exactly `{a_b: 1, a_c: 2}`
with joined names and exactly `{b: 1, c: 2}` with
`keep_nested_name=false`. -/
theorem flatten_two_leaf_example :
    flatten_json (JTree.node (.cons "a" (.node (.cons "b" (.leaf (1 : Int))
        (.cons "c" (.leaf 2) .nil))) .nil)) true = .ok [("a_b", 1), ("a_c", 2)] ∧
    flatten_json (JTree.node (.cons "a" (.node (.cons "b" (.leaf (1 : Int))
        (.cons "c" (.leaf 2) .nil))) .nil)) false = .ok [("b", 1), ("c", 2)] := by
  refine ⟨by decide, by decide⟩

/-- C7: an already-flat single-level mapping with pairwise-distinct keys is
returned unchanged by `flatten_json`, in either naming mode. -/
theorem flatten_flat_mapping_identity (l : List (String × α)) (keep : Bool)
    (h : (keysOf l).Nodup) :
    flatten_json (.node (ofPairs l)) keep = .ok l := by
  rw [flatten_json_char]
  have he : fEntries keep (JTree.node (ofPairs l)) "" = l := by
    rw [fEntries]
    exact fEntriesList_ofPairs keep l
  rw [he, if_pos h]

/-- Witness for C7 on the flat mapping `{a: 1, b: 2}`. -/
theorem flatten_flat_mapping_identity_witness :
    (keysOf [("a", (1 : Int)), ("b", 2)]).Nodup ∧
    flatten_json (.node (ofPairs [("a", (1 : Int)), ("b", 2)])) false
      = .ok [("a", 1), ("b", 2)] :=
  ⟨by decide, flatten_flat_mapping_identity _ false (by decide)⟩

/-- C8: a bare leaf passed as the root flattens, in both naming modes, to
the one-entry mapping binding the empty-string-derived key `""` (Python's
`name[:-1]` of the empty initial name) to the leaf value. -/
theorem flatten_bare_leaf_empty_key (x : α) (keep : Bool) :
    flatten_json (.leaf x) keep = .ok [("", x)] := rfl

/-- C9: `load_dict_from_hdf5` acquires the store handle, runs the traversal
on the open handle, and the handle ends closed whatever the traversal
returned — the result, successful or erroneous, is exactly the traversal's
and the `with` block's exit leaves no open handle on any path. -/
theorem load_handle_closed_on_every_path (file : H5List) :
    (load_dict_from_hdf5 file).2.opened = true ∧
    (load_dict_from_hdf5 file).2.closed = true ∧
    (load_dict_from_hdf5 file).1 = loadGroup file :=
  ⟨rfl, rfl, rfl⟩

/-- C10: flattening the empty mapping yields the empty mapping, and an
empty dict reached anywhere in the traversal contributes no entry and no
error — it vanishes silently, leaving the accumulated output unchanged. -/
theorem flatten_empty_vanishes (keep : Bool) :
    flatten_json (JTree.node .nil : JTree α) keep = .ok [] ∧
    ∀ (name : String) (out : List (String × α)),
      flattenAux keep (.node .nil) name out = .ok out :=
  ⟨rfl, fun _ _ => rfl⟩

end NeuralPredictors
